import Mathlib

/-!
Verification of a minimal terminal-text-styling library.

The program consists of three pieces:
* a capability detector `isColorSupported` reading environment variables,
  command-line flags, the platform and the TTY status;
* a formatter factory `formatter` together with the nested-escape
  resequencer `replaceClose` (a do-while loop over `String.indexOf`);
* a table builder `createColors` producing 41 style functions.

JavaScript strings are modelled as `List Char` (one entry per UTF-16 code
unit of the strings that actually occur, all of which are ASCII or the
escape character).  `String.prototype.indexOf`, `String.prototype.substring`
and the do-while loop of `replaceClose` are embedded faithfully below;
the loop is given explicit fuel (`s.length + 1` suffices, as proved in
`replaceCloseGo_eq`).
-/

namespace Color

/-- First occurrence of `pat` in `t`: smallest offset at which `pat` is a
prefix of the remaining list.  For an empty `pat` this is `some 0`, matching
JavaScript's `indexOf`. -/
def findOcc (pat : List Char) : List Char → Option Nat
  | [] => if pat.isPrefixOf [] then some 0 else none
  | a :: t => if pat.isPrefixOf (a :: t) then some 0 else (findOcc pat t).map (· + 1)

/-- JavaScript `s.indexOf(pat, start)`: the start position is clamped to the
length of `s`, and the result is the absolute index of the first occurrence
of `pat` at or after the clamped position (`none` models `-1`). -/
def jsIndexOf (s pat : List Char) (start : Nat) : Option Nat :=
  (findOcc pat (s.drop (min start s.length))).map (· + min start s.length)

/-- JavaScript `s.substring(a, b)`: both arguments are clamped to the length
of `s` and swapped if out of order. -/
def jsSubstring (s : List Char) (a b : Nat) : List Char :=
  (s.take (max (min a s.length) (min b s.length))).drop
    (min (min a s.length) (min b s.length))

/-- The do-while loop of `replaceClose` from the source:

    let result = "", cursor = 0;
    do {
      result += string.substring(cursor, index) + replace;
      cursor = index + close.length;
      index = string.indexOf(close, cursor);
    } while (~index);
    return result + string.substring(cursor);

`fuel` bounds the number of iterations; `replaceClose` supplies
`s.length + 1`, which is enough for every nonempty `close`
(`replaceCloseGo_eq` below shows the result is then fuel-independent). -/
def replaceCloseGo (s close rep : List Char) : Nat → Nat → Nat → List Char
  | 0, cursor, _ => s.drop cursor
  | fuel + 1, cursor, index =>
    let piece := jsSubstring s cursor index ++ rep
    let cursor2 := index + close.length
    match jsIndexOf s close cursor2 with
    | some index2 => piece ++ replaceCloseGo s close rep fuel cursor2 index2
    | none => piece ++ s.drop cursor2

/-- Embedding of `replaceClose(string, close, replace, index)` from the source. -/
def replaceClose (s close rep : List Char) (index : Nat) : List Char :=
  replaceCloseGo s close rep (s.length + 1) 0 index

/-- Embedding of `formatter(open, close, replace = open)` from the source (the first
parameter is renamed `o` because `open` is a Lean keyword):

    (input) => {
      let string = "" + input,
        index = string.indexOf(close, open.length);
      return ~index
        ? open + replaceClose(string, close, replace, index) + close
        : open + string + close;
    }
-/
def formatter (o close : List Char) (rep : List Char := o) : List Char → List Char :=
  fun input =>
    match jsIndexOf input close o.length with
    | some index => o ++ replaceClose input close rep index ++ close
    | none => o ++ input ++ close

/-- JavaScript truthiness of an environment-variable lookup (`!!env.X`):
absent (`undefined`) and the empty string are falsy, every other string is
truthy. -/
def truthy : Option String → Bool
  | none => false
  | some v => v != ""

/-- The snapshot of the process the capability detector reads: the four
environment variables, the argument list, the platform identifier and the
truthiness of `(p.stdout || {}).isTTY`.  `none` models an absent value. -/
structure ProcessState where
  NO_COLOR : Option String
  FORCE_COLOR : Option String
  TERM : Option String
  CI : Option String
  argv : List String
  platform : Option String
  stdoutIsTTY : Option Bool

/-- Embedding of `isColorSupported` from the source:

    !(!!env.NO_COLOR || argv.includes("--no-color")) &&
    (!!env.FORCE_COLOR ||
      argv.includes("--color") ||
      p.platform === "win32" ||
      ((p.stdout || {}).isTTY && env.TERM !== "dumb") ||
      !!env.CI)
-/
def isColorSupported (p : ProcessState) : Bool :=
  !(truthy p.NO_COLOR || p.argv.contains "--no-color") &&
  (truthy p.FORCE_COLOR ||
    p.argv.contains "--color" ||
    p.platform == some "win32" ||
    (p.stdoutIsTTY.getD false && p.TERM != some "dumb") ||
    truthy p.CI)

/-- The record type returned by `createColors` (the `ColorFunctions` type
alias of the source). -/
structure ColorFunctions where
  isColorSupported : Bool
  reset : List Char → List Char
  bold : List Char → List Char
  dim : List Char → List Char
  italic : List Char → List Char
  underline : List Char → List Char
  inverse : List Char → List Char
  hidden : List Char → List Char
  strikethrough : List Char → List Char
  black : List Char → List Char
  red : List Char → List Char
  green : List Char → List Char
  yellow : List Char → List Char
  blue : List Char → List Char
  magenta : List Char → List Char
  cyan : List Char → List Char
  white : List Char → List Char
  gray : List Char → List Char
  bgBlack : List Char → List Char
  bgRed : List Char → List Char
  bgGreen : List Char → List Char
  bgYellow : List Char → List Char
  bgBlue : List Char → List Char
  bgMagenta : List Char → List Char
  bgCyan : List Char → List Char
  bgWhite : List Char → List Char
  blackBright : List Char → List Char
  redBright : List Char → List Char
  greenBright : List Char → List Char
  yellowBright : List Char → List Char
  blueBright : List Char → List Char
  magentaBright : List Char → List Char
  cyanBright : List Char → List Char
  whiteBright : List Char → List Char
  bgBlackBright : List Char → List Char
  bgRedBright : List Char → List Char
  bgGreenBright : List Char → List Char
  bgYellowBright : List Char → List Char
  bgBlueBright : List Char → List Char
  bgMagentaBright : List Char → List Char
  bgCyanBright : List Char → List Char
  bgWhiteBright : List Char → List Char

/-- Embedding of `createColors(enabled)` from the source.  When disabled, every entry is
`() => String`, i.e. calling the entry on a string returns that string
unchanged (the `String` constructor coerces, and on a string it is the
identity); this is modelled as `fun _ _ _ input => input`.  Where the source
omits the third argument of `f`, the default `replace = open` is written out
explicitly. -/
def createColors (enabled : Bool) : ColorFunctions :=
  let f : List Char → List Char → List Char → List Char → List Char :=
    if enabled then (fun o c r => formatter o c r) else (fun _ _ _ input => input)
  { isColorSupported := enabled
    reset := f "\x1b[0m".data "\x1b[0m".data "\x1b[0m".data
    bold := f "\x1b[1m".data "\x1b[22m".data "\x1b[22m\x1b[1m".data
    dim := f "\x1b[2m".data "\x1b[22m".data "\x1b[22m\x1b[2m".data
    italic := f "\x1b[3m".data "\x1b[23m".data "\x1b[3m".data
    underline := f "\x1b[4m".data "\x1b[24m".data "\x1b[4m".data
    inverse := f "\x1b[7m".data "\x1b[27m".data "\x1b[7m".data
    hidden := f "\x1b[8m".data "\x1b[28m".data "\x1b[8m".data
    strikethrough := f "\x1b[9m".data "\x1b[29m".data "\x1b[9m".data
    black := f "\x1b[30m".data "\x1b[39m".data "\x1b[30m".data
    red := f "\x1b[31m".data "\x1b[39m".data "\x1b[31m".data
    green := f "\x1b[32m".data "\x1b[39m".data "\x1b[32m".data
    yellow := f "\x1b[33m".data "\x1b[39m".data "\x1b[33m".data
    blue := f "\x1b[34m".data "\x1b[39m".data "\x1b[34m".data
    magenta := f "\x1b[35m".data "\x1b[39m".data "\x1b[35m".data
    cyan := f "\x1b[36m".data "\x1b[39m".data "\x1b[36m".data
    white := f "\x1b[37m".data "\x1b[39m".data "\x1b[37m".data
    gray := f "\x1b[90m".data "\x1b[39m".data "\x1b[90m".data
    bgBlack := f "\x1b[40m".data "\x1b[49m".data "\x1b[40m".data
    bgRed := f "\x1b[41m".data "\x1b[49m".data "\x1b[41m".data
    bgGreen := f "\x1b[42m".data "\x1b[49m".data "\x1b[42m".data
    bgYellow := f "\x1b[43m".data "\x1b[49m".data "\x1b[43m".data
    bgBlue := f "\x1b[44m".data "\x1b[49m".data "\x1b[44m".data
    bgMagenta := f "\x1b[45m".data "\x1b[49m".data "\x1b[45m".data
    bgCyan := f "\x1b[46m".data "\x1b[49m".data "\x1b[46m".data
    bgWhite := f "\x1b[47m".data "\x1b[49m".data "\x1b[47m".data
    blackBright := f "\x1b[90m".data "\x1b[39m".data "\x1b[90m".data
    redBright := f "\x1b[91m".data "\x1b[39m".data "\x1b[91m".data
    greenBright := f "\x1b[92m".data "\x1b[39m".data "\x1b[92m".data
    yellowBright := f "\x1b[93m".data "\x1b[39m".data "\x1b[93m".data
    blueBright := f "\x1b[94m".data "\x1b[39m".data "\x1b[94m".data
    magentaBright := f "\x1b[95m".data "\x1b[39m".data "\x1b[95m".data
    cyanBright := f "\x1b[96m".data "\x1b[39m".data "\x1b[96m".data
    whiteBright := f "\x1b[97m".data "\x1b[39m".data "\x1b[97m".data
    bgBlackBright := f "\x1b[100m".data "\x1b[49m".data "\x1b[100m".data
    bgRedBright := f "\x1b[101m".data "\x1b[49m".data "\x1b[101m".data
    bgGreenBright := f "\x1b[102m".data "\x1b[49m".data "\x1b[102m".data
    bgYellowBright := f "\x1b[103m".data "\x1b[49m".data "\x1b[103m".data
    bgBlueBright := f "\x1b[104m".data "\x1b[49m".data "\x1b[104m".data
    bgMagentaBright := f "\x1b[105m".data "\x1b[49m".data "\x1b[105m".data
    bgCyanBright := f "\x1b[106m".data "\x1b[49m".data "\x1b[106m".data
    bgWhiteBright := f "\x1b[107m".data "\x1b[49m".data "\x1b[107m".data }

/-! ### Specification-side definitions -/

/-- Left-to-right replacement of every (non-overlapping) occurrence of
`close` by `rep`, resuming immediately after each replaced occurrence.
This is the specification-level description of what the resequencing loop
computes from the first found occurrence onwards. -/
def replaceAll (close rep : List Char) : List Char → List Char
  | [] => []
  | a :: t =>
    if close ≠ [] ∧ close.isPrefixOf (a :: t) = true then
      rep ++ replaceAll close rep (t.drop (close.length - 1))
    else
      a :: replaceAll close rep t
termination_by l => l.length
decreasing_by
  · simp only [List.length_drop, List.length_cons]
    omega
  · simp only [List.length_cons]
    omega

/-- Predicate: `s` contains no escape character (the spec's "text containing no escape
sequences"). -/
def noEsc (s : List Char) : Bool := s.all (fun c => c != '\x1b')

/-- The capability rule as worded in the specification: rule 1, a set
`NO_COLOR` (non-empty/truthy value) or a literal `--no-color` flag disables
color regardless of any enabling signal; rule 2, otherwise color is enabled
if `FORCE_COLOR` is set, or `--color` is present, or the platform is
Windows, or stdout is an interactive TTY and `TERM` is not the literal
string "dumb", or `CI` is set; rule 3, otherwise color is disabled.
Following the spec's defensive reading, "set" means set to a truthy
(non-empty) value, as it spells out for `NO_COLOR`. -/
def isColorSupportedSpec (p : ProcessState) : Bool :=
  if truthy p.NO_COLOR || p.argv.contains "--no-color" then false
  else if truthy p.FORCE_COLOR then true
  else if p.argv.contains "--color" then true
  else if p.platform == some "win32" then true
  else if p.stdoutIsTTY.getD false && p.TERM != some "dumb" then true
  else if truthy p.CI then true
  else false

/-! ### Lemmas about the search primitive -/

theorem findOcc_sound (pat : List Char) :
    ∀ (t : List Char) (i : Nat), findOcc pat t = some i →
      pat.isPrefixOf (t.drop i) = true ∨ (pat = [] ∧ i = t.length) := by
  intro t
  induction t with
  | nil =>
    intro i h
    simp only [findOcc] at h
    split at h
    · rename_i hpre
      cases h
      exact Or.inl (by simpa using hpre)
    · exact absurd h (by simp)
  | cons a t ih =>
    intro i h
    simp only [findOcc] at h
    split at h
    · rename_i hpre
      cases h
      exact Or.inl (by simpa using hpre)
    · rw [Option.map_eq_some'] at h
      obtain ⟨j, hj, rfl⟩ := h
      rcases ih j hj with h1 | ⟨h1, h2⟩
      · exact Or.inl (by simpa using h1)
      · exact Or.inr ⟨h1, by simp [h2]⟩

theorem findOcc_sound' (pat : List Char) (hp : pat ≠ []) (t : List Char) (i : Nat)
    (h : findOcc pat t = some i) : pat.isPrefixOf (t.drop i) = true := by
  rcases findOcc_sound pat t i h with h1 | ⟨h1, _⟩
  · exact h1
  · exact absurd h1 hp

theorem findOcc_min (pat : List Char) :
    ∀ (t : List Char) (i : Nat), findOcc pat t = some i →
      ∀ j, j < i → pat.isPrefixOf (t.drop j) = false := by
  intro t
  induction t with
  | nil =>
    intro i h j hj
    simp only [findOcc] at h
    split at h
    · cases h; omega
    · exact absurd h (by simp)
  | cons a t ih =>
    intro i h j hj
    simp only [findOcc] at h
    split at h
    · cases h; omega
    · rename_i hpre
      rw [Option.map_eq_some'] at h
      obtain ⟨k, hk, rfl⟩ := h
      cases j with
      | zero =>
        simp only [← Bool.not_eq_true]
        simpa using hpre
      | succ j => exact ih k hk j (by omega)

theorem findOcc_none (pat : List Char) :
    ∀ (t : List Char), findOcc pat t = none →
      ∀ j, pat.isPrefixOf (t.drop j) = false := by
  intro t
  induction t with
  | nil =>
    intro h j
    simp only [findOcc] at h
    split at h
    · exact absurd h (by simp)
    · rename_i hpre
      simp only [← Bool.not_eq_true]
      simpa using hpre
  | cons a t ih =>
    intro h j
    simp only [findOcc] at h
    split at h
    · exact absurd h (by simp)
    · rename_i hpre
      rw [Option.map_eq_none'] at h
      cases j with
      | zero =>
        simp only [← Bool.not_eq_true]
        simpa using hpre
      | succ j => exact ih h j

/-- Soundness of `jsIndexOf` for a nonempty pattern: a successful search from
`b` returns an occurrence at or after `b`, lying inside the list. -/
theorem jsIndexOf_some (s pat : List Char) (b i : Nat) (hp : pat ≠ [])
    (h : jsIndexOf s pat b = some i) :
    b ≤ i ∧ pat.isPrefixOf (s.drop i) = true ∧ i + pat.length ≤ s.length := by
  have hb : b ≤ s.length := by
    by_contra hb
    push_neg at hb
    have hm : min b s.length = s.length := by omega
    simp only [jsIndexOf, hm, List.drop_length] at h
    rw [Option.map_eq_some'] at h
    obtain ⟨j, hj, _⟩ := h
    simp only [findOcc] at hj
    split at hj
    · rename_i hpre
      exact hp (by simpa using hpre)
    · exact absurd hj (by simp)
  have hm : min b s.length = b := by omega
  simp only [jsIndexOf, hm] at h
  rw [Option.map_eq_some'] at h
  obtain ⟨j, hj, rfl⟩ := h
  have hocc := findOcc_sound' pat hp _ _ hj
  rw [List.drop_drop] at hocc
  have hpre : pat <+: s.drop (b + j) := by simpa using hocc
  have hlen : pat.length ≤ (s.drop (b + j)).length := hpre.length_le
  rw [List.length_drop] at hlen
  have hpos : 0 < pat.length := List.length_pos.mpr hp
  refine ⟨by omega, ?_, by omega⟩
  have : b + j = j + b := by omega
  rw [this] at hocc
  exact hocc

/-- Minimality of `jsIndexOf`: no occurrence starts between the (clamped)
search start and the returned index. -/
theorem jsIndexOf_min (s pat : List Char) (b i : Nat)
    (h : jsIndexOf s pat b = some i) :
    ∀ j, b ≤ j → j < i → pat.isPrefixOf (s.drop j) = false := by
  intro j hbj hji
  simp only [jsIndexOf] at h
  rw [Option.map_eq_some'] at h
  obtain ⟨k, hk, rfl⟩ := h
  have hmb : min b s.length ≤ b := Nat.min_le_left _ _
  have := findOcc_min pat _ k hk (j - min b s.length) (by omega)
  rw [List.drop_drop] at this
  have hj : min b s.length + (j - min b s.length) = j := by omega
  rwa [hj] at this

/-- Completeness of `jsIndexOf`: a failed search means no occurrence starts
at or after the search position. -/
theorem jsIndexOf_none (s pat : List Char) (b : Nat)
    (h : jsIndexOf s pat b = none) :
    ∀ j, b ≤ j → pat.isPrefixOf (s.drop j) = false := by
  intro j hbj
  simp only [jsIndexOf, Option.map_eq_none'] at h
  have hmb : min b s.length ≤ b := Nat.min_le_left _ _
  have := findOcc_none pat _ h (j - min b s.length)
  rw [List.drop_drop] at this
  have hj : min b s.length + (j - min b s.length) = j := by omega
  rwa [hj] at this

/-- If no occurrence of `pat` starts anywhere in `s`, every search fails. -/
theorem jsIndexOf_eq_none (s pat : List Char) (b : Nat)
    (h : ∀ j, pat.isPrefixOf (s.drop j) = false) :
    jsIndexOf s pat b = none := by
  have hp : pat ≠ [] := by
    intro hnil
    have := h s.length
    rw [hnil] at this
    simp at this
  cases hres : jsIndexOf s pat b with
  | none => rfl
  | some i =>
    obtain ⟨-, hocc, -⟩ := jsIndexOf_some s pat b i hp hres
    rw [h i] at hocc
    cases hocc

/-! ### The loop computes left-to-right replacement -/

theorem jsSubstring_eq (s : List Char) (a b : Nat) (h1 : a ≤ b) (h2 : b ≤ s.length) :
    jsSubstring s a b = (s.take b).drop a := by
  have ha : min a s.length = a := by omega
  have hb : min b s.length = b := by omega
  simp only [jsSubstring, ha, hb]
  rw [Nat.max_eq_right h1, Nat.min_eq_left h1]

theorem findOcc_nil (pat : List Char) (hc : pat ≠ []) : findOcc pat [] = none := by
  cases pat with
  | nil => exact absurd rfl hc
  | cons x xs => rfl

theorem exists_cons_of_ne_nil (close : List Char) (hc : close ≠ []) :
    ∃ x xs, close = x :: xs := by
  cases close with
  | nil => exact absurd rfl hc
  | cons x xs => exact ⟨x, xs, rfl⟩

/-- Unfolding lemma: `replaceAll` expressed through the first occurrence: it copies the part
before the first occurrence, inserts the replacement, and continues right
after the matched occurrence. -/
theorem replaceAll_eq_findOcc (close rep : List Char) (hc : close ≠ []) :
    ∀ t : List Char, replaceAll close rep t =
      match findOcc close t with
      | some i => t.take i ++ rep ++ replaceAll close rep (t.drop (i + close.length))
      | none => t := by
  intro t
  induction t with
  | nil =>
    rw [replaceAll, findOcc_nil close hc]
  | cons a t ih =>
    by_cases hpre : close.isPrefixOf (a :: t) = true
    · rw [replaceAll, if_pos ⟨hc, hpre⟩]
      have hfo : findOcc close (a :: t) = some 0 := by simp [findOcc, hpre]
      rw [hfo]
      obtain ⟨x, xs, rfl⟩ := exists_cons_of_ne_nil close hc
      simp
    · rw [replaceAll, if_neg (by simp [hpre])]
      have hfo : findOcc close (a :: t) = (findOcc close t).map (· + 1) := by
        simp [findOcc, hpre]
      rw [hfo, ih]
      cases hfo2 : findOcc close t with
      | none => simp
      | some j =>
        simp only [Option.map_some']
        have hdrop : (a :: t).drop (j + 1 + close.length) = t.drop (j + close.length) := by
          have : j + 1 + close.length = (j + close.length) + 1 := by omega
          rw [this, List.drop_succ_cons]
        rw [List.take_succ_cons, hdrop]
        simp

/-- At an occurrence of `close`, `replaceAll` inserts the replacement and
resumes immediately after the matched occurrence. -/
theorem replaceAll_of_occ (close rep u : List Char) (hc : close ≠ [])
    (h : close.isPrefixOf u = true) :
    replaceAll close rep u = rep ++ replaceAll close rep (u.drop close.length) := by
  cases u with
  | nil =>
    have hp : close <+: ([] : List Char) := by simpa using h
    exact absurd (List.prefix_nil.mp hp) hc
  | cons a t =>
    rw [replaceAll, if_pos ⟨hc, h⟩]
    obtain ⟨x, xs, rfl⟩ := exists_cons_of_ne_nil close hc
    simp

theorem replaceAll_no_occ (close rep : List Char) :
    ∀ t : List Char, (∀ j, close.isPrefixOf (t.drop j) = false) →
      replaceAll close rep t = t := by
  intro t
  induction t with
  | nil => intro _; rw [replaceAll]
  | cons a t ih =>
    intro h
    rw [replaceAll, if_neg]
    · rw [ih (fun j => h (j + 1))]
    · rintro ⟨-, hpre⟩
      have h0 := h 0
      rw [List.drop_zero] at h0
      rw [h0] at hpre
      cases hpre

/-- Absolute-index version of `replaceAll_eq_findOcc`, phrased through
`jsIndexOf` on the enclosing list. -/
theorem replaceAll_drop (close rep s : List Char) (hc : close ≠ []) (c : Nat) :
    replaceAll close rep (s.drop c) =
      match jsIndexOf s close c with
      | some i => (s.take i).drop c ++ rep ++ replaceAll close rep (s.drop (i + close.length))
      | none => s.drop c := by
  by_cases hcs : c ≤ s.length
  · have hm : min c s.length = c := by omega
    rw [replaceAll_eq_findOcc close rep hc (s.drop c)]
    simp only [jsIndexOf, hm]
    cases hfo : findOcc close (s.drop c) with
    | none => simp
    | some i0 =>
      simp only [Option.map_some']
      have e1 : (s.drop c).take i0 = (s.take (i0 + c)).drop c := by
        rw [List.take_drop]
        have h : c + i0 = i0 + c := by omega
        rw [h]
      have e2 : (s.drop c).drop (i0 + close.length) = s.drop (i0 + c + close.length) := by
        rw [List.drop_drop]
        have h : c + (i0 + close.length) = i0 + c + close.length := by omega
        rw [h]
      rw [e1, e2]
  · push_neg at hcs
    have hm : min c s.length = s.length := by omega
    have hd : s.drop c = [] := List.drop_eq_nil_of_le (by omega)
    simp only [jsIndexOf, hm, List.drop_length, findOcc_nil close hc, Option.map_none']
    rw [hd, replaceAll]

/-- The do-while loop, run with any sufficient fuel from an occurrence of
`close` at `index ≥ cursor`, copies `s` between `cursor` and `index` and then
performs left-to-right replacement of every occurrence from `index` on.  In
particular the result does not depend on the fuel, i.e. the loop terminates,
each step advancing the cursor past the matched occurrence. -/
theorem replaceCloseGo_eq (s close rep : List Char) (hc : close ≠ []) :
    ∀ (fuel cursor index : Nat),
      cursor ≤ index → close.isPrefixOf (s.drop index) = true →
      s.length + 1 - cursor ≤ fuel →
      replaceCloseGo s close rep fuel cursor index =
        (s.take index).drop cursor ++ replaceAll close rep (s.drop index) := by
  intro fuel
  induction fuel with
  | zero =>
    intro cursor index hci hocc hfuel
    exfalso
    have hpre : close <+: s.drop index := by simpa using hocc
    have h1 : 0 < close.length := List.length_pos.mpr hc
    have h2 : close.length ≤ s.length - index := by
      have := hpre.length_le
      rwa [List.length_drop] at this
    omega
  | succ fuel ih =>
    intro cursor index hci hocc hfuel
    have hpre : close <+: s.drop index := by simpa using hocc
    have h1 : 0 < close.length := List.length_pos.mpr hc
    have h2 : close.length ≤ s.length - index := by
      have := hpre.length_le
      rwa [List.length_drop] at this
    have hind : index ≤ s.length := by omega
    have hsub : jsSubstring s cursor index = (s.take index).drop cursor :=
      jsSubstring_eq s cursor index hci hind
    have hrw : replaceAll close rep (s.drop index) =
        rep ++ replaceAll close rep (s.drop (index + close.length)) := by
      rw [replaceAll_of_occ close rep _ hc hocc, List.drop_drop]
    simp only [replaceCloseGo]
    split
    case _ i2 hnext =>
      obtain ⟨hle2, hocc2, hbound2⟩ := jsIndexOf_some s close _ i2 hc hnext
      have hrec := ih (index + close.length) i2 hle2 hocc2 (by omega)
      have htail : replaceAll close rep (s.drop (index + close.length)) =
          (s.take i2).drop (index + close.length) ++ rep ++
            replaceAll close rep (s.drop (i2 + close.length)) := by
        have := replaceAll_drop close rep s hc (index + close.length)
        rwa [hnext] at this
      have hrw2 : replaceAll close rep (s.drop i2) =
          rep ++ replaceAll close rep (s.drop (i2 + close.length)) := by
        rw [replaceAll_of_occ close rep _ hc hocc2, List.drop_drop]
      rw [hsub, hrec, hrw, htail, hrw2]
      simp [List.append_assoc]
    case _ hnext =>
      have htail : replaceAll close rep (s.drop (index + close.length)) =
          s.drop (index + close.length) := by
        have := replaceAll_drop close rep s hc (index + close.length)
        rwa [hnext] at this
      rw [hsub, hrw, htail]
      simp [List.append_assoc]

/-- Entry-point lemma: `replaceClose` at an occurrence of `close` equals copy plus
left-to-right replacement of every occurrence from `index` on. -/
theorem replaceClose_eq (s close rep : List Char) (index : Nat) (hc : close ≠ [])
    (hocc : close.isPrefixOf (s.drop index) = true) :
    replaceClose s close rep index = s.take index ++ replaceAll close rep (s.drop index) := by
  unfold replaceClose
  rw [replaceCloseGo_eq s close rep hc (s.length + 1) 0 index (Nat.zero_le _) hocc (by omega)]
  simp

/-- The occurrence branch of `formatter`. -/
theorem formatter_some (o close rep input : List Char) (i : Nat) (hc : close ≠ [])
    (h : jsIndexOf input close o.length = some i) :
    formatter o close rep input =
      o ++ input.take i ++ replaceAll close rep (input.drop i) ++ close := by
  obtain ⟨-, hocc, -⟩ := jsIndexOf_some input close o.length i hc h
  simp only [formatter, h]
  rw [replaceClose_eq input close rep i hc hocc]
  simp [List.append_assoc]

/-- The no-occurrence branch of `formatter`. -/
theorem formatter_none (o close rep input : List Char)
    (h : jsIndexOf input close o.length = none) :
    formatter o close rep input = o ++ input ++ close := by
  simp only [formatter, h]

/-! ### Escape-character reasoning -/

theorem not_mem_esc (x : List Char) (hx : noEsc x = true) (h : '\x1b' ∈ x) : False := by
  rw [noEsc, List.all_eq_true] at hx
  have := hx _ h
  simp at this

/-- A pattern containing the escape character never occurs inside an
escape-free list. -/
theorem no_occ_of_esc_mem (pat s : List Char) (hpat : '\x1b' ∈ pat)
    (hs : noEsc s = true) : ∀ j, pat.isPrefixOf (s.drop j) = false := by
  intro j
  cases h : pat.isPrefixOf (s.drop j) with
  | false => rfl
  | true =>
    exfalso
    have hp : pat <+: s.drop j := by simpa using h
    have hmem : '\x1b' ∈ s.drop j := hp.sublist.subset hpat
    exact not_mem_esc s hs (List.mem_of_mem_drop hmem)

theorem head?_of_isPrefixOf (p l : List Char) (a : Char) (hp : p.head? = some a)
    (h : p.isPrefixOf l = true) : l.head? = some a := by
  have hpre : p <+: l := by simpa using h
  obtain ⟨t, rfl⟩ := hpre
  cases p with
  | nil => simp at hp
  | cons x xs => simpa using hp

/-- A prefix of an append is either (short) a prefix of the left part, or
(long) extends it. -/
theorem prefix_append_cases (p x y : List Char) (h : p <+: x ++ y) :
    (p.length ≤ x.length ∧ p <+: x) ∨ (x.length ≤ p.length ∧ x <+: p) := by
  by_cases hl : p.length ≤ x.length
  · left
    refine ⟨hl, ?_⟩
    have h2 : p <+: (x ++ y).take x.length := List.prefix_take_iff.mpr ⟨h, hl⟩
    rwa [List.take_left] at h2
  · right
    push_neg at hl
    refine ⟨by omega, ?_⟩
    have hp : p = (x ++ y).take p.length := List.prefix_iff_eq_take.mp h
    have hx : x <+: (x ++ y).take p.length := by
      have := List.take_prefix_take_left (x ++ y) (le_of_lt hl)
      rwa [List.take_left] at this
    rwa [← hp] at hx

/-- In `bo ++ s ++ bc` where `bo` and `bc` start with the escape character
and are otherwise escape-free, and `s` is escape-free, the escape character
appears only at position `0` and at position `bo.length + s.length`. -/
theorem esc_pos (bo s bc : List Char)
    (hbo : bo.head? = some '\x1b') (hbt : noEsc bo.tail = true)
    (hbc : bc.head? = some '\x1b') (hct : noEsc bc.tail = true)
    (hs : noEsc s = true) (j : Nat)
    (hj : (bo ++ (s ++ bc))[j]? = some '\x1b') :
    j = 0 ∨ j = bo.length + s.length := by
  obtain ⟨bt, rfl⟩ : ∃ bt, bo = '\x1b' :: bt := by
    cases bo with
    | nil => simp at hbo
    | cons x xs =>
      simp only [List.head?_cons, Option.some.injEq] at hbo
      exact ⟨xs, by rw [hbo]⟩
  obtain ⟨ct, rfl⟩ : ∃ ct, bc = '\x1b' :: ct := by
    cases bc with
    | nil => simp at hbc
    | cons x xs =>
      simp only [List.head?_cons, Option.some.injEq] at hbc
      exact ⟨xs, by rw [hbc]⟩
  simp only [List.tail_cons] at hbt hct
  by_cases h1 : j < ('\x1b' :: bt).length
  · rw [List.getElem?_append_left h1] at hj
    cases j with
    | zero => exact Or.inl rfl
    | succ k =>
      exfalso
      simp only [List.getElem?_cons_succ] at hj
      exact not_mem_esc bt hbt (List.getElem?_mem hj)
  · push_neg at h1
    rw [List.getElem?_append_right h1] at hj
    by_cases h2 : j - ('\x1b' :: bt).length < s.length
    · exfalso
      rw [List.getElem?_append_left h2] at hj
      exact not_mem_esc s hs (List.getElem?_mem hj)
    · push_neg at h2
      rw [List.getElem?_append_right h2] at hj
      rcases hk : j - ('\x1b' :: bt).length - s.length with _ | m
      · right
        simp only [List.length_cons] at h1 h2 hk ⊢
        omega
      · exfalso
        rw [hk] at hj
        simp only [List.getElem?_cons_succ] at hj
        exact not_mem_esc ct hct (List.getElem?_mem hj)

/-- Every formatter whose close code contains the escape character leaves an
escape-free text in the simple branch: the output is `open ++ s ++ close`. -/
theorem formatter_no_esc (o close rep s : List Char) (hpat : '\x1b' ∈ close)
    (hs : noEsc s = true) : formatter o close rep s = o ++ s ++ close :=
  formatter_none o close rep s
    (jsIndexOf_eq_none s close o.length (no_occ_of_esc_mem close s hpat hs))

/-- In both branches, the output of a formatter starts with its open code
and ends with its close code. -/
theorem formatter_starts_ends (o close rep t : List Char) :
    o.isPrefixOf (formatter o close rep t) = true ∧
    close.isSuffixOf (formatter o close rep t) = true := by
  obtain ⟨m, hm⟩ : ∃ m, formatter o close rep t = o ++ m ++ close := by
    unfold formatter
    split <;> exact ⟨_, rfl⟩
  rw [hm]
  constructor
  · rw [ List.isPrefixOf_iff_prefix, List.append_assoc]
    exact List.prefix_append o (m ++ close)
  · rw [List.isSuffixOf_iff_suffix]
    exact List.suffix_append (o ++ m) close

/-! ### The style table as data -/

/-- The 41 `(open, close, replacement)` triples of the enabled table, in
source order; the replacement is `open` itself except for `bold` and `dim`. -/
def styleCodes : List (List Char × List Char × List Char) :=
  [("\x1b[0m".data, "\x1b[0m".data, "\x1b[0m".data),
   ("\x1b[1m".data, "\x1b[22m".data, "\x1b[22m\x1b[1m".data),
   ("\x1b[2m".data, "\x1b[22m".data, "\x1b[22m\x1b[2m".data),
   ("\x1b[3m".data, "\x1b[23m".data, "\x1b[3m".data),
   ("\x1b[4m".data, "\x1b[24m".data, "\x1b[4m".data),
   ("\x1b[7m".data, "\x1b[27m".data, "\x1b[7m".data),
   ("\x1b[8m".data, "\x1b[28m".data, "\x1b[8m".data),
   ("\x1b[9m".data, "\x1b[29m".data, "\x1b[9m".data),
   ("\x1b[30m".data, "\x1b[39m".data, "\x1b[30m".data),
   ("\x1b[31m".data, "\x1b[39m".data, "\x1b[31m".data),
   ("\x1b[32m".data, "\x1b[39m".data, "\x1b[32m".data),
   ("\x1b[33m".data, "\x1b[39m".data, "\x1b[33m".data),
   ("\x1b[34m".data, "\x1b[39m".data, "\x1b[34m".data),
   ("\x1b[35m".data, "\x1b[39m".data, "\x1b[35m".data),
   ("\x1b[36m".data, "\x1b[39m".data, "\x1b[36m".data),
   ("\x1b[37m".data, "\x1b[39m".data, "\x1b[37m".data),
   ("\x1b[90m".data, "\x1b[39m".data, "\x1b[90m".data),
   ("\x1b[40m".data, "\x1b[49m".data, "\x1b[40m".data),
   ("\x1b[41m".data, "\x1b[49m".data, "\x1b[41m".data),
   ("\x1b[42m".data, "\x1b[49m".data, "\x1b[42m".data),
   ("\x1b[43m".data, "\x1b[49m".data, "\x1b[43m".data),
   ("\x1b[44m".data, "\x1b[49m".data, "\x1b[44m".data),
   ("\x1b[45m".data, "\x1b[49m".data, "\x1b[45m".data),
   ("\x1b[46m".data, "\x1b[49m".data, "\x1b[46m".data),
   ("\x1b[47m".data, "\x1b[49m".data, "\x1b[47m".data),
   ("\x1b[90m".data, "\x1b[39m".data, "\x1b[90m".data),
   ("\x1b[91m".data, "\x1b[39m".data, "\x1b[91m".data),
   ("\x1b[92m".data, "\x1b[39m".data, "\x1b[92m".data),
   ("\x1b[93m".data, "\x1b[39m".data, "\x1b[93m".data),
   ("\x1b[94m".data, "\x1b[39m".data, "\x1b[94m".data),
   ("\x1b[95m".data, "\x1b[39m".data, "\x1b[95m".data),
   ("\x1b[96m".data, "\x1b[39m".data, "\x1b[96m".data),
   ("\x1b[97m".data, "\x1b[39m".data, "\x1b[97m".data),
   ("\x1b[100m".data, "\x1b[49m".data, "\x1b[100m".data),
   ("\x1b[101m".data, "\x1b[49m".data, "\x1b[101m".data),
   ("\x1b[102m".data, "\x1b[49m".data, "\x1b[102m".data),
   ("\x1b[103m".data, "\x1b[49m".data, "\x1b[103m".data),
   ("\x1b[104m".data, "\x1b[49m".data, "\x1b[104m".data),
   ("\x1b[105m".data, "\x1b[49m".data, "\x1b[105m".data),
   ("\x1b[106m".data, "\x1b[49m".data, "\x1b[106m".data),
   ("\x1b[107m".data, "\x1b[49m".data, "\x1b[107m".data)]

/-- Every open and close code starts with the escape character and contains
no further escape character. -/
theorem styleCodes_wf : ∀ x ∈ styleCodes,
    x.1.head? = some '\x1b' ∧ noEsc x.1.tail = true ∧
    x.2.1.head? = some '\x1b' ∧ noEsc x.2.1.tail = true := by decide

/-- No close code is a strict prefix of another close code. -/
theorem styleCodes_closes : ∀ a ∈ styleCodes, ∀ b ∈ styleCodes,
    a.2.1.isPrefixOf b.2.1 = true → a.2.1 = b.2.1 := by decide

/-- For styles with distinct close codes, the close code of one is never a
prefix of the open code of the other, nor conversely. -/
theorem styleCodes_close_open : ∀ a ∈ styleCodes, ∀ b ∈ styleCodes,
    a.2.1 ≠ b.2.1 →
    a.2.1.isPrefixOf b.1 = false ∧ b.1.isPrefixOf a.2.1 = false := by decide

theorem replaceAll_nil (close rep : List Char) : replaceAll close rep [] = [] := by
  rw [replaceAll]

/-- Two consecutive occurrences of `close` are both replaced, the scan
resuming right after each match. -/
theorem replaceAll_double (close rep u : List Char) (hc : close ≠ []) :
    replaceAll close rep (close ++ close ++ u) = rep ++ rep ++ replaceAll close rep u := by
  have hp1 : close.isPrefixOf (close ++ close ++ u) = true := by
    rw [ List.isPrefixOf_iff_prefix, List.append_assoc]
    exact List.prefix_append close (close ++ u)
  have hp2 : close.isPrefixOf (close ++ u) = true := by
    rw [ List.isPrefixOf_iff_prefix]
    exact List.prefix_append close u
  rw [replaceAll_of_occ close rep _ hc hp1, List.append_assoc, List.drop_left,
    replaceAll_of_occ close rep _ hc hp2, List.drop_left, List.append_assoc]

/-! ### The claims -/

/-- C2: the capability detector agrees with the spec's precedence rule: a
truthy `NO_COLOR` or a literal `--no-color` flag disables color regardless
of any enabling signal; otherwise color is enabled exactly when
`FORCE_COLOR` is truthy, or `--color` is present, or the platform is
`win32`, or stdout is a TTY and `TERM` is not `"dumb"`, or `CI` is truthy;
otherwise it is disabled.  Absent data is modelled by `none`/the empty list
and yields the falsy branch everywhere; the function is total. -/
theorem isColorSupported_correct (p : ProcessState) :
    isColorSupported p = isColorSupportedSpec p := by
  simp only [isColorSupported, isColorSupportedSpec]
  generalize truthy p.NO_COLOR = a
  generalize p.argv.contains "--no-color" = b
  generalize truthy p.FORCE_COLOR = c
  generalize p.argv.contains "--color" = d
  generalize (p.platform == some "win32") = e
  generalize (p.stdoutIsTTY.getD false && p.TERM != some "dumb") = f
  generalize truthy p.CI = g
  revert a b c d e f g
  decide

/-- C3: with `enabled = false`, every style function of the table is the
identity on its input string (the source's `() => String`, which on a string
returns it unchanged), for every input including ones containing escape
sequences; in particular `red "x" = "x"` and no escape codes are emitted. -/
theorem disabled_identity : ∀ s : List Char,
    (createColors false).reset s = s ∧
    (createColors false).bold s = s ∧
    (createColors false).dim s = s ∧
    (createColors false).italic s = s ∧
    (createColors false).underline s = s ∧
    (createColors false).inverse s = s ∧
    (createColors false).hidden s = s ∧
    (createColors false).strikethrough s = s ∧
    (createColors false).black s = s ∧
    (createColors false).red s = s ∧
    (createColors false).green s = s ∧
    (createColors false).yellow s = s ∧
    (createColors false).blue s = s ∧
    (createColors false).magenta s = s ∧
    (createColors false).cyan s = s ∧
    (createColors false).white s = s ∧
    (createColors false).gray s = s ∧
    (createColors false).bgBlack s = s ∧
    (createColors false).bgRed s = s ∧
    (createColors false).bgGreen s = s ∧
    (createColors false).bgYellow s = s ∧
    (createColors false).bgBlue s = s ∧
    (createColors false).bgMagenta s = s ∧
    (createColors false).bgCyan s = s ∧
    (createColors false).bgWhite s = s ∧
    (createColors false).blackBright s = s ∧
    (createColors false).redBright s = s ∧
    (createColors false).greenBright s = s ∧
    (createColors false).yellowBright s = s ∧
    (createColors false).blueBright s = s ∧
    (createColors false).magentaBright s = s ∧
    (createColors false).cyanBright s = s ∧
    (createColors false).whiteBright s = s ∧
    (createColors false).bgBlackBright s = s ∧
    (createColors false).bgRedBright s = s ∧
    (createColors false).bgGreenBright s = s ∧
    (createColors false).bgYellowBright s = s ∧
    (createColors false).bgBlueBright s = s ∧
    (createColors false).bgMagentaBright s = s ∧
    (createColors false).bgCyanBright s = s ∧
    (createColors false).bgWhiteBright s = s ∧
    (createColors false).red "x".data = "x".data :=
  fun s => ⟨rfl, rfl, rfl, rfl, rfl, rfl, rfl, rfl, rfl, rfl, rfl, rfl, rfl, rfl, rfl, rfl, rfl, rfl, rfl, rfl, rfl, rfl, rfl, rfl, rfl, rfl, rfl, rfl, rfl, rfl, rfl, rfl, rfl, rfl, rfl, rfl, rfl, rfl, rfl, rfl, rfl, rfl⟩

/-- C5: with color enabled, `bold (dim "x")` re-asserts bold's open code
right after the inner boundary, giving `ESC[1m ESC[2m x ESC[22mESC[1m
ESC[22m`, and symmetrically `dim (bold "x")` gives `ESC[2m ESC[1m x
ESC[22mESC[2m ESC[22m`. -/
theorem bold_dim_nesting :
    (createColors true).bold ((createColors true).dim "x".data) =
      "\x1b[1m\x1b[2mx\x1b[22m\x1b[1m\x1b[22m".data ∧
    (createColors true).dim ((createColors true).bold "x".data) =
      "\x1b[2m\x1b[1mx\x1b[22m\x1b[2m\x1b[22m".data := by
  constructor <;> decide

/-- C8 (amended): `blackBright` and `gray` are built from the same codes
(`ESC[90m` / `ESC[39m`), so they agree on every input, for the enabled and
for the disabled table.  The claim's further statement that `whiteBright`
uses the codes of `white` is refuted by `whiteBright_ne_white`:
`whiteBright` opens with `ESC[97m` while `white` opens with `ESC[37m`. -/
theorem blackBright_eq_gray : ∀ (b : Bool) (s : List Char),
    (createColors b).blackBright s = (createColors b).gray s := by
  intro b s
  cases b <;> rfl

/-- C8 as stated is false: `whiteBright`'s codes differ from `white`'s, as
their outputs on `"x"` show (`ESC[97m` versus `ESC[37m`). -/
theorem whiteBright_ne_white :
    (createColors true).whiteBright "x".data ≠ (createColors true).white "x".data := by
  decide

/-- C1 (amended): for a formatter `wrap(text, open, close, replacement)`
with nonempty close code, the first occurrence of `close` in `text` is
sought at or after index `open.length`; if none is found the result is
`open ++ text ++ close`; if one is found, at the smallest such index `i`,
every occurrence of `close` from index `i` onwards (scanning left to right,
resuming after each match) is replaced by `replacement` and the result is
wrapped in `open` and `close`.  The original claim's stronger wording that
*every* occurrence of `close` in `text` is replaced is refuted by
`wrap_not_replace_all`: occurrences beginning before the found index are
kept verbatim. -/
theorem wrap_replaces_from_found_index (o close rep t : List Char) (hc : close ≠ []) :
    (jsIndexOf t close o.length = none →
      formatter o close rep t = o ++ t ++ close ∧
      ∀ j, o.length ≤ j → close.isPrefixOf (t.drop j) = false) ∧
    (∀ i, jsIndexOf t close o.length = some i →
      o.length ≤ i ∧ close.isPrefixOf (t.drop i) = true ∧
      (∀ j, o.length ≤ j → j < i → close.isPrefixOf (t.drop j) = false) ∧
      formatter o close rep t =
        o ++ t.take i ++ replaceAll close rep (t.drop i) ++ close) := by
  constructor
  · intro h
    exact ⟨formatter_none o close rep t h, jsIndexOf_none t close o.length h⟩
  · intro i h
    obtain ⟨h1, h2, -⟩ := jsIndexOf_some t close o.length i hc h
    exact ⟨h1, h2, fun j hj1 hj2 => jsIndexOf_min t close o.length i h j hj1 hj2,
      formatter_some o close rep t i hc h⟩

theorem wrap_replaces_from_found_index_witness :
    formatter "\x1b[31m".data "\x1b[39m".data "\x1b[31m".data "hello\x1b[39m!".data =
      "\x1b[31m".data ++ ("hello\x1b[39m!".data).take 5 ++
        replaceAll "\x1b[39m".data "\x1b[31m".data (("hello\x1b[39m!".data).drop 5) ++
        "\x1b[39m".data :=
  ((wrap_replaces_from_found_index "\x1b[31m".data "\x1b[39m".data "\x1b[31m".data
      "hello\x1b[39m!".data (by decide)).2 5 (by decide)).2.2.2

/-- C1 as stated is false: for `text = close ++ close` with the red codes,
the search from `open.length = 5` finds the occurrence at index 5, but the
occurrence at index 0 is kept verbatim instead of being replaced, so the
output differs from `open ++ (text with every occurrence replaced) ++
close`. -/
theorem wrap_not_replace_all :
    jsIndexOf "\x1b[39m\x1b[39m".data "\x1b[39m".data ("\x1b[31m".data).length = some 5 ∧
    formatter "\x1b[31m".data "\x1b[39m".data "\x1b[31m".data "\x1b[39m\x1b[39m".data ≠
      "\x1b[31m".data ++
        replaceAll "\x1b[39m".data "\x1b[31m".data "\x1b[39m\x1b[39m".data ++
        "\x1b[39m".data := by
  have e0 : ("\x1b[39m\x1b[39m".data : List Char) =
      "\x1b[39m".data ++ "\x1b[39m".data ++ [] := by decide
  constructor
  · decide
  · rw [e0, replaceAll_double _ _ _ (by decide), replaceAll_nil]
    decide

/-- C9: in the occurrence branch the output is `open ++ text.take i ++
(replacement applied from i on) ++ close`, so occurrences of `close`
beginning before the found index `i` are left verbatim in the output (the
second conjunct of the branch exhibits them at their shifted positions);
and when every occurrence of `close` begins before index `open.length`, no
occurrence is found and the output is exactly `open ++ text ++ close`. -/
theorem close_before_found_kept (o close rep t : List Char) (hc : close ≠ []) :
    (∀ i, jsIndexOf t close o.length = some i →
      formatter o close rep t = o ++ t.take i ++ replaceAll close rep (t.drop i) ++ close ∧
      ∀ j, j + close.length ≤ i → close.isPrefixOf (t.drop j) = true →
        close.isPrefixOf ((formatter o close rep t).drop (o.length + j)) = true) ∧
    ((∀ j, close.isPrefixOf (t.drop j) = true → j < o.length) →
      formatter o close rep t = o ++ t ++ close) := by
  constructor
  · intro i h
    have hfmt := formatter_some o close rep t i hc h
    obtain ⟨hio, hocc, hbound⟩ := jsIndexOf_some t close o.length i hc h
    refine ⟨hfmt, ?_⟩
    intro j hji hjocc
    have hclen : 0 < close.length := List.length_pos.mpr hc
    rw [hfmt, List.append_assoc, List.append_assoc, List.drop_append,
      List.drop_append_eq_append_drop]
    have hjp : close <+: t.drop j := by simpa using hjocc
    have htake : close <+: (t.take i).drop j := by
      rw [List.drop_take]
      exact List.prefix_take_iff.mpr ⟨hjp, by omega⟩
    rw [ List.isPrefixOf_iff_prefix]
    exact htake.trans (List.prefix_append _ _)
  · intro hall
    apply formatter_none
    cases hres : jsIndexOf t close o.length with
    | none => rfl
    | some i =>
      exfalso
      obtain ⟨h1, h2, -⟩ := jsIndexOf_some t close o.length i hc hres
      have := hall i h2
      omega

theorem close_before_found_kept_witness :
    ("\x1b[39m".data).isPrefixOf
      ((formatter "\x1b[31m".data "\x1b[39m".data "\x1b[31m".data
          "\x1b[39mab\x1b[39m".data).drop (("\x1b[31m".data).length + 0)) = true :=
  (((close_before_found_kept "\x1b[31m".data "\x1b[39m".data "\x1b[31m".data
      "\x1b[39mab\x1b[39m".data (by decide)).1 7 (by decide)).2 0 (by decide) (by decide))

/-- The 41 style functions of the enabled table, each paired with its
`(open, close)` escape codes, in source order. -/
def styleEntries : List ((List Char → List Char) × List Char × List Char) :=
  [((createColors true).reset, "\x1b[0m".data, "\x1b[0m".data),
   ((createColors true).bold, "\x1b[1m".data, "\x1b[22m".data),
   ((createColors true).dim, "\x1b[2m".data, "\x1b[22m".data),
   ((createColors true).italic, "\x1b[3m".data, "\x1b[23m".data),
   ((createColors true).underline, "\x1b[4m".data, "\x1b[24m".data),
   ((createColors true).inverse, "\x1b[7m".data, "\x1b[27m".data),
   ((createColors true).hidden, "\x1b[8m".data, "\x1b[28m".data),
   ((createColors true).strikethrough, "\x1b[9m".data, "\x1b[29m".data),
   ((createColors true).black, "\x1b[30m".data, "\x1b[39m".data),
   ((createColors true).red, "\x1b[31m".data, "\x1b[39m".data),
   ((createColors true).green, "\x1b[32m".data, "\x1b[39m".data),
   ((createColors true).yellow, "\x1b[33m".data, "\x1b[39m".data),
   ((createColors true).blue, "\x1b[34m".data, "\x1b[39m".data),
   ((createColors true).magenta, "\x1b[35m".data, "\x1b[39m".data),
   ((createColors true).cyan, "\x1b[36m".data, "\x1b[39m".data),
   ((createColors true).white, "\x1b[37m".data, "\x1b[39m".data),
   ((createColors true).gray, "\x1b[90m".data, "\x1b[39m".data),
   ((createColors true).bgBlack, "\x1b[40m".data, "\x1b[49m".data),
   ((createColors true).bgRed, "\x1b[41m".data, "\x1b[49m".data),
   ((createColors true).bgGreen, "\x1b[42m".data, "\x1b[49m".data),
   ((createColors true).bgYellow, "\x1b[43m".data, "\x1b[49m".data),
   ((createColors true).bgBlue, "\x1b[44m".data, "\x1b[49m".data),
   ((createColors true).bgMagenta, "\x1b[45m".data, "\x1b[49m".data),
   ((createColors true).bgCyan, "\x1b[46m".data, "\x1b[49m".data),
   ((createColors true).bgWhite, "\x1b[47m".data, "\x1b[49m".data),
   ((createColors true).blackBright, "\x1b[90m".data, "\x1b[39m".data),
   ((createColors true).redBright, "\x1b[91m".data, "\x1b[39m".data),
   ((createColors true).greenBright, "\x1b[92m".data, "\x1b[39m".data),
   ((createColors true).yellowBright, "\x1b[93m".data, "\x1b[39m".data),
   ((createColors true).blueBright, "\x1b[94m".data, "\x1b[39m".data),
   ((createColors true).magentaBright, "\x1b[95m".data, "\x1b[39m".data),
   ((createColors true).cyanBright, "\x1b[96m".data, "\x1b[39m".data),
   ((createColors true).whiteBright, "\x1b[97m".data, "\x1b[39m".data),
   ((createColors true).bgBlackBright, "\x1b[100m".data, "\x1b[49m".data),
   ((createColors true).bgRedBright, "\x1b[101m".data, "\x1b[49m".data),
   ((createColors true).bgGreenBright, "\x1b[102m".data, "\x1b[49m".data),
   ((createColors true).bgYellowBright, "\x1b[103m".data, "\x1b[49m".data),
   ((createColors true).bgBlueBright, "\x1b[104m".data, "\x1b[49m".data),
   ((createColors true).bgMagentaBright, "\x1b[105m".data, "\x1b[49m".data),
   ((createColors true).bgCyanBright, "\x1b[106m".data, "\x1b[49m".data),
   ((createColors true).bgWhiteBright, "\x1b[107m".data, "\x1b[49m".data)]

/-- C6: every style function `f` of the enabled table satisfies
`f s = open ++ s ++ close` for every text `s` containing no escape
character (the simple, non-nested case). -/
theorem enabled_simple_wrap : ∀ x ∈ styleEntries, ∀ s : List Char,
    noEsc s = true → x.1 s = x.2.1 ++ s ++ x.2.2 := by
  intro x hx s hs
  fin_cases hx <;> exact formatter_no_esc _ _ _ s (by decide) hs

theorem enabled_simple_wrap_witness :
    (createColors true).reset "x".data = "\x1b[0m".data ++ "x".data ++ "\x1b[0m".data :=
  enabled_simple_wrap _ (List.mem_cons_self _ _) "x".data rfl

/-- C10: for every style of the enabled table and every input, the output
begins with the style's open code and ends with its close code, in both the
occurrence-found and the no-occurrence branch of the formatter. -/
theorem enabled_output_delimited : ∀ x ∈ styleEntries, ∀ t : List Char,
    x.2.1.isPrefixOf (x.1 t) = true ∧ x.2.2.isSuffixOf (x.1 t) = true := by
  intro x hx t
  fin_cases hx <;> exact formatter_starts_ends _ _ _ t

theorem enabled_output_delimited_witness :
    ("\x1b[0m".data).isPrefixOf ((createColors true).reset "x".data) = true ∧
    ("\x1b[0m".data).isSuffixOf ((createColors true).reset "x".data) = true :=
  enabled_output_delimited _ (List.mem_cons_self _ _) "x".data

/-- C7: consecutive occurrences are handled correctly and the loop
terminates on every input.  First conjunct: on `close ++ close ++ t` the
replacement rewrites both occurrences, resuming right after each match (no
double counting).  Second conjunct: for every sufficient fuel the loop
computes the same copy-then-replace result, i.e. the do-while loop
terminates, each step advancing the cursor past the matched close length.
Third conjunct: a formatter input whose found occurrence starts two
back-to-back closes has both replaced. -/
theorem consecutive_close (o close rep t s v : List Char) (i fuel : Nat) (hc : close ≠ []) :
    (replaceAll close rep (close ++ close ++ t) = rep ++ rep ++ replaceAll close rep t) ∧
    (∀ cursor index, cursor ≤ index → close.isPrefixOf (s.drop index) = true →
      s.length + 1 - cursor ≤ fuel →
      replaceCloseGo s close rep fuel cursor index =
        (s.take index).drop cursor ++ replaceAll close rep (s.drop index)) ∧
    (jsIndexOf s close o.length = some i → s.drop i = close ++ close ++ v →
      formatter o close rep s =
        o ++ s.take i ++ (rep ++ rep ++ replaceAll close rep v) ++ close) := by
  refine ⟨replaceAll_double close rep t hc, ?_, ?_⟩
  · intro cursor index h1 h2 h3
    exact replaceCloseGo_eq s close rep hc fuel cursor index h1 h2 h3
  · intro h hdrop
    rw [formatter_some o close rep s i hc h, hdrop,
      replaceAll_double close rep v hc]

theorem consecutive_close_witness :
    formatter "\x1b[31m".data "\x1b[39m".data "\x1b[31m".data
        "abcde\x1b[39m\x1b[39m".data =
      "\x1b[31m".data ++ ("abcde\x1b[39m\x1b[39m".data).take 5 ++
        ("\x1b[31m".data ++ "\x1b[31m".data ++
          replaceAll "\x1b[39m".data "\x1b[31m".data []) ++
        "\x1b[39m".data :=
  (consecutive_close "\x1b[31m".data "\x1b[39m".data "\x1b[31m".data "z".data
      "abcde\x1b[39m\x1b[39m".data [] 5 20 (by decide)).2.2 (by decide) (by decide)

/-- C4 (amended): for two styles `A` (outer) and `B` (inner) of the table
with distinct close codes and any string `s` containing no escape
character, `A (B s)` contains no occurrence of `A`'s raw close code before
its trailing close: the inner part `B s` contains no occurrence of `A`'s
close at all, so the output is exactly `A.open ++ B s ++ A.close`, and
every position of the inner part fails to start `A`'s close code.  The
original claim's quantification over *every* string `s` is refuted by
`nested_raw_close_cex`: if `s` itself contains `A`'s close code at a
position that ends up before index `A.open.length`, it is kept verbatim. -/
theorem nested_distinct_close (Ao Ac Ar Bo Bc Br s : List Char)
    (hA : (Ao, Ac, Ar) ∈ styleCodes) (hB : (Bo, Bc, Br) ∈ styleCodes)
    (hne : Ac ≠ Bc) (hs : noEsc s = true) :
    formatter Ao Ac Ar (formatter Bo Bc Br s) =
      Ao ++ formatter Bo Bc Br s ++ Ac ∧
    ∀ j, Ac.isPrefixOf ((formatter Bo Bc Br s).drop j) = false := by
  obtain ⟨hAoh, hAot, hAch, hAct⟩ := styleCodes_wf _ hA
  obtain ⟨hBoh, hBot, hBch, hBct⟩ := styleCodes_wf _ hB
  obtain ⟨hco1, hco2⟩ := styleCodes_close_open _ hA _ hB hne
  have hBesc : '\x1b' ∈ Bc := by
    cases Bc with
    | nil => simp at hBch
    | cons x xs =>
      simp only [List.head?_cons, Option.some.injEq] at hBch
      rw [← hBch]
      exact List.mem_cons_self x xs
  have hinner : formatter Bo Bc Br s = Bo ++ s ++ Bc :=
    formatter_no_esc Bo Bc Br s hBesc hs
  have hnocc : ∀ j, Ac.isPrefixOf ((Bo ++ s ++ Bc).drop j) = false := by
    intro j
    cases hocc : Ac.isPrefixOf ((Bo ++ s ++ Bc).drop j) with
    | false => rfl
    | true =>
      exfalso
      have hhead : ((Bo ++ s ++ Bc).drop j).head? = some '\x1b' :=
        head?_of_isPrefixOf Ac _ _ hAch hocc
      have hget : (Bo ++ (s ++ Bc))[j]? = some '\x1b' := by
        rw [← List.append_assoc, ← List.head?_drop]
        exact hhead
      rcases esc_pos Bo s Bc hBoh hBot hBch hBct hs j hget with rfl | rfl
      · have hp : Ac <+: Bo ++ (s ++ Bc) := by
          have := hocc
          rw [List.drop_zero, List.append_assoc] at this
          simpa using this
        rcases prefix_append_cases Ac Bo (s ++ Bc) hp with ⟨-, hpp⟩ | ⟨-, hpp⟩
        · have hb : Ac.isPrefixOf Bo = true := by simpa using hpp
          rw [hco1] at hb
          cases hb
        · have hb : Bo.isPrefixOf Ac = true := by simpa using hpp
          rw [hco2] at hb
          cases hb
      · have hdropBc : (Bo ++ s ++ Bc).drop (Bo.length + s.length) = Bc :=
          List.drop_left' (by rw [List.length_append])
        rw [hdropBc] at hocc
        exact hne (styleCodes_closes _ hA _ hB hocc)
  refine ⟨?_, ?_⟩
  · rw [hinner]
    exact formatter_none Ao Ac Ar (Bo ++ s ++ Bc)
      (jsIndexOf_eq_none (Bo ++ s ++ Bc) Ac Ao.length hnocc)
  · intro j
    rw [hinner]
    exact hnocc j

theorem nested_distinct_close_witness :
    formatter "\x1b[31m".data "\x1b[39m".data "\x1b[31m".data
        (formatter "\x1b[1m".data "\x1b[22m".data "\x1b[22m\x1b[1m".data "x".data) =
      "\x1b[31m".data ++
        formatter "\x1b[1m".data "\x1b[22m".data "\x1b[22m\x1b[1m".data "x".data ++
        "\x1b[39m".data ∧
    ∀ j, ("\x1b[39m".data).isPrefixOf
      ((formatter "\x1b[1m".data "\x1b[22m".data "\x1b[22m\x1b[1m".data
        "x".data).drop j) = false :=
  nested_distinct_close "\x1b[31m".data "\x1b[39m".data "\x1b[31m".data
    "\x1b[1m".data "\x1b[22m".data "\x1b[22m\x1b[1m".data "x".data
    (by decide) (by decide) (by decide) rfl

/-- C4 as stated is false at `A = red`, `B = bold`, `s = ESC[39m`: the
output `red (bold s)` contains red's raw close code `ESC[39m` starting at
index 9, which ends before the trailing close begins, because that
occurrence sits before index `red.open.length` in the inner text and is
kept verbatim. -/
theorem nested_raw_close_cex :
    ("\x1b[39m".data).isPrefixOf
        ((formatter "\x1b[31m".data "\x1b[39m".data "\x1b[31m".data
          (formatter "\x1b[1m".data "\x1b[22m".data "\x1b[22m\x1b[1m".data
            "\x1b[39m".data)).drop 9) = true ∧
    9 + ("\x1b[39m".data).length ≤
      (formatter "\x1b[31m".data "\x1b[39m".data "\x1b[31m".data
        (formatter "\x1b[1m".data "\x1b[22m".data "\x1b[22m\x1b[1m".data
          "\x1b[39m".data)).length - ("\x1b[39m".data).length := by
  constructor
  · decide
  · decide

end Color
